import Mathlib

/-!
Shallow embedding of the JustLib syntax highlighter (the function `Highlight`
in `src/unnamed/part_000` and in `src/JustLib.js`) and of the memoized parse
regex of `ComplexNumber.__getParseRegex`, together with theorems settling the
frozen claims about them.

Text is modelled as `List Char`.  Each JS string operation the code performs
(global single-character replace, slice-based insertion, split on newline,
non-overlapping global scan of a literal pattern, ...) is translated
operation by operation.  Regex *matching* of the rule patterns themselves is
not re-implemented: the scanner is embedded relative to an oracle list of
matches, exactly the data the JS `String.replace` callback receives.
-/

/-- Category labels of the highlighter: the values of the `Colors` rule table
plus the remaining theme variables enumerated by the theme. -/
inductive Cat
  | COMMENT | REGEX | NUMBER | STRING | TEMPLATE_CODE | NAME | DATA_TYPE
  | IMPORT | CONTROL | CONSTANT | CONDITIONAL | FUNCTION | ARITHMETIC
  | STORAGE | KEYWORD | VARIABLE | ENUM | INDENT | SELECTION
  | SELECTED_LINE | LINE_NUMBER | BACKGROUND
  deriving DecidableEq, Fintype

/-- The textual name of a category, as interpolated into markup. -/
def catName : Cat → List Char
  | .COMMENT => "COMMENT".data
  | .REGEX => "REGEX".data
  | .NUMBER => "NUMBER".data
  | .STRING => "STRING".data
  | .TEMPLATE_CODE => "TEMPLATE_CODE".data
  | .NAME => "NAME".data
  | .DATA_TYPE => "DATA_TYPE".data
  | .IMPORT => "IMPORT".data
  | .CONTROL => "CONTROL".data
  | .CONSTANT => "CONSTANT".data
  | .CONDITIONAL => "CONDITIONAL".data
  | .FUNCTION => "FUNCTION".data
  | .ARITHMETIC => "ARITHMETIC".data
  | .STORAGE => "STORAGE".data
  | .KEYWORD => "KEYWORD".data
  | .VARIABLE => "VARIABLE".data
  | .ENUM => "ENUM".data
  | .INDENT => "INDENT".data
  | .SELECTION => "SELECTION".data
  | .SELECTED_LINE => "SELECTED_LINE".data
  | .LINE_NUMBER => "LINE_NUMBER".data
  | .BACKGROUND => "BACKGROUND".data

/-- Semantics of `str.replace(/(c)/g, rep)` for a one-character pattern `c`:
every occurrence of the character is replaced by `rep`. -/
def replaceChar (c : Char) (rep : List Char) : List Char → List Char
  | [] => []
  | x :: r => (if x = c then rep else [x]) ++ replaceChar c rep r

/-- The escaping performed by `Highlight` before scanning:
`str.replace(/(>)/g, "&gt;")` followed by `str.replace(/(<)/g, "&lt;")`. -/
def escape (s : List Char) : List Char :=
  replaceChar '<' "&lt;".data (replaceChar '>' "&gt;".data s)

theorem mem_replaceChar {x : Char} {c : Char} {rep : List Char} :
    ∀ {s : List Char}, x ∈ replaceChar c rep s → x ∈ rep ∨ (x ∈ s ∧ x ≠ c) := by
  intro s h
  induction s with
  | nil => simp [replaceChar] at h
  | cons y r ih =>
    simp only [replaceChar, List.mem_append] at h
    rcases h with h | h
    · by_cases hy : y = c
      · simp [hy] at h
        exact Or.inl h
      · simp [hy] at h
        exact Or.inr ⟨by simp [h], by simpa [h] using hy⟩
    · rcases ih h with h' | ⟨hmem, hne⟩
      · exact Or.inl h'
      · exact Or.inr ⟨List.mem_cons_of_mem _ hmem, hne⟩

theorem replaceChar_eq_self {c : Char} {rep : List Char} :
    ∀ {s : List Char}, c ∉ s → replaceChar c rep s = s := by
  intro s h
  induction s with
  | nil => rfl
  | cons y r ih =>
    have hy : y ≠ c := fun hyc => h (by simp [hyc])
    simp [replaceChar, hy, ih (fun hc => h (List.mem_cons_of_mem _ hc))]

theorem lt_not_mem_escape (s : List Char) : '<' ∉ escape s := by
  intro h
  rcases mem_replaceChar h with h' | ⟨h', hne⟩
  · simp at h'
  · exact hne rfl

theorem gt_not_mem_escape (s : List Char) : '>' ∉ escape s := by
  intro h
  rcases mem_replaceChar h with h' | ⟨h', hne⟩
  · simp at h'
  · rcases mem_replaceChar h' with h'' | ⟨_, hne'⟩
    · simp at h''
    · exact hne' rfl

/-- C7: the escaping that replaces every `>` with `&gt;` and then every `<`
with `&lt;` is idempotent: escaping already-escaped text changes nothing, so
re-running the pipeline's escaping stage never double-encodes entities. -/
theorem escape_idempotent (s : List Char) : escape (escape s) = escape s := by
  have h1 : escape (escape s) =
      replaceChar '<' "&lt;".data (replaceChar '>' "&gt;".data (escape s)) := rfl
  rw [h1, replaceChar_eq_self (gt_not_mem_escape s),
    replaceChar_eq_self (lt_not_mem_escape s)]

/-- A candidate span: the triple `[pos, color, pos + group.length]` that the
scanner pushes into `positions`.  The third component is called `end` in the
source; `end` is a Lean keyword, so the field is named `stop`. -/
structure Span where
  start : Nat
  color : Cat
  stop : Nat
  deriving DecidableEq

/-- One insertion step of the stable ascending sort modelling
`positions.sort((a, b) => a[0] - b[0])` (JS sort is stable): a span is placed
before the first already-sorted span with a start offset `≥` its own, so
spans with equal starts keep their push order. -/
def insertSpan (x : Span) : List Span → List Span
  | [] => [x]
  | y :: l => if x.start ≤ y.start then x :: y :: l else y :: insertSpan x l

/-- Stable sort of the candidate spans ascending by start offset. -/
def sortSpans : List Span → List Span
  | [] => []
  | x :: l => insertSpan x (sortSpans l)

/-- The overlap-resolution walk over the sorted spans: `End` starts at `-1`;
a span whose `start` is strictly below `End` is skipped (`continue`),
otherwise it is accepted and `End` becomes its `end`. -/
def acceptGo : List Span → Int → List Span
  | [], _ => []
  | p :: rest, e =>
    if (p.start : Int) < e then acceptGo rest e
    else p :: acceptGo rest (p.stop : Int)

/-- The spans the compositor accepts (and wraps in markup): sort by start,
then walk with `End` initialized to `-1`. -/
def acceptSpans (ps : List Span) : List Span := acceptGo (sortSpans ps) (-1)

theorem insertSpan_perm (x : Span) :
    ∀ (l : List Span), List.Perm (insertSpan x l) (x :: l) := by
  intro l
  induction l with
  | nil => exact List.Perm.refl _
  | cons y l ih =>
    by_cases h : x.start ≤ y.start
    · rw [insertSpan, if_pos h]
    · rw [insertSpan, if_neg h]
      exact (ih.cons y).trans (List.Perm.swap x y l)

theorem sortSpans_perm : ∀ (l : List Span), List.Perm (sortSpans l) l := by
  intro l
  induction l with
  | nil => exact List.Perm.refl _
  | cons x l ih => exact (insertSpan_perm x (sortSpans l)).trans (ih.cons x)

theorem insertSpan_sorted {x : Span} :
    ∀ {l : List Span}, l.Pairwise (fun a b => a.start ≤ b.start) →
    (insertSpan x l).Pairwise (fun a b => a.start ≤ b.start) := by
  intro l h
  induction l with
  | nil => simp [insertSpan]
  | cons y l ih =>
    rw [List.pairwise_cons] at h
    by_cases hle : x.start ≤ y.start
    · rw [insertSpan, if_pos hle, List.pairwise_cons]
      refine ⟨fun z hz => ?_, List.pairwise_cons.mpr h⟩
      rcases List.mem_cons.mp hz with rfl | hz'
      · exact hle
      · exact le_trans hle (h.1 z hz')
    · rw [insertSpan, if_neg hle, List.pairwise_cons]
      refine ⟨fun z hz => ?_, ih h.2⟩
      rcases (insertSpan_perm x l).mem_iff.mp hz with hz'
      rcases List.mem_cons.mp hz' with rfl | hz''
      · exact le_of_lt (lt_of_not_le hle)
      · exact h.1 z hz''

theorem sortSpans_sorted :
    ∀ (l : List Span), (sortSpans l).Pairwise (fun a b => a.start ≤ b.start) := by
  intro l
  induction l with
  | nil => simp [sortSpans]
  | cons x l ih => exact insertSpan_sorted ih

theorem acceptGo_sublist :
    ∀ (l : List Span) (e : Int), List.Sublist (acceptGo l e) l := by
  intro l
  induction l with
  | nil => intro e; exact List.Sublist.slnil
  | cons p rest ih =>
    intro e
    by_cases hc : (p.start : Int) < e
    · rw [acceptGo, if_pos hc]
      exact (ih e).cons p
    · rw [acceptGo, if_neg hc]
      exact (ih (p.stop : Int)).cons₂ p

theorem acceptGo_start_ge :
    ∀ {l : List Span} {e : Int} {x : Span},
    l.Pairwise (fun a b => a.start ≤ b.start) → x ∈ acceptGo l e →
    e ≤ (x.start : Int) := by
  intro l
  induction l with
  | nil => intro e x _ h; simp [acceptGo] at h
  | cons p rest ih =>
    intro e x hpw hx
    rw [List.pairwise_cons] at hpw
    by_cases hc : (p.start : Int) < e
    · rw [acceptGo, if_pos hc] at hx
      exact ih hpw.2 hx
    · rw [acceptGo, if_neg hc] at hx
      rcases List.mem_cons.mp hx with rfl | hx'
      · exact le_of_not_lt hc
      · have hxr : x ∈ rest := (acceptGo_sublist rest _).mem hx'
        have h1 : (p.start : Int) ≤ (x.start : Int) := by
          exact_mod_cast hpw.1 x hxr
        exact le_trans (le_of_not_lt hc) h1

theorem acceptGo_pairwise :
    ∀ {l : List Span} (e : Int), l.Pairwise (fun a b => a.start ≤ b.start) →
    (acceptGo l e).Pairwise (fun a b => a.stop ≤ b.start) := by
  intro l
  induction l with
  | nil => intro e _; simp [acceptGo]
  | cons p rest ih =>
    intro e h
    rw [List.pairwise_cons] at h
    by_cases hc : (p.start : Int) < e
    · rw [acceptGo, if_pos hc]
      exact ih e h.2
    · rw [acceptGo, if_neg hc, List.pairwise_cons]
      refine ⟨fun x hx => ?_, ih _ h.2⟩
      exact_mod_cast acceptGo_start_ge h.2 hx

/-- C1: span non-overlap after composition.  For every candidate list and
every pair of spans the compositor accepts, if `s1` starts strictly before
`s2` then `s2` starts at or after `s1`'s end; a candidate starting before the
most recently accepted span's end is skipped by `acceptGo` and so never
wrapped in markup. -/
theorem accepted_spans_non_overlap (ps : List Span) (s1 s2 : Span)
    (h1 : s1 ∈ acceptSpans ps) (h2 : s2 ∈ acceptSpans ps)
    (hlt : s1.start < s2.start) : s1.stop ≤ s2.start := by
  have hsor := sortSpans_sorted ps
  have hstop : (acceptSpans ps).Pairwise (fun a b => a.stop ≤ b.start) :=
    acceptGo_pairwise (-1) hsor
  have hle : (acceptSpans ps).Pairwise (fun a b => a.start ≤ b.start) :=
    List.Pairwise.sublist (acceptGo_sublist (sortSpans ps) (-1)) hsor
  have hand := hstop.and hle
  have hsym : (acceptSpans ps).Pairwise (fun a b =>
      (a.start < b.start → a.stop ≤ b.start) ∧
      (b.start < a.start → b.stop ≤ a.start)) := by
    refine hand.imp (fun hab => ?_)
    exact ⟨fun _ => hab.1, fun hba => absurd hab.2 (not_le_of_lt hba)⟩
  have hne : s1 ≠ s2 := fun h => by rw [h] at hlt; exact lt_irrefl _ hlt
  have hR := List.Pairwise.forall
    (fun x y hxy => ⟨hxy.2, hxy.1⟩) hsym h1 h2 hne
  exact hR.1 hlt

/-- Witness for C1: a concrete run of the compositor. -/
theorem accepted_spans_non_overlap_witness :
    (⟨0, Cat.COMMENT, 2⟩ : Span).stop ≤ (⟨3, Cat.KEYWORD, 5⟩ : Span).start :=
  accepted_spans_non_overlap [⟨0, Cat.COMMENT, 2⟩, ⟨3, Cat.KEYWORD, 5⟩]
    ⟨0, Cat.COMMENT, 2⟩ ⟨3, Cat.KEYWORD, 5⟩ (by decide) (by decide) (by decide)

theorem filter_insertSpan_pos {x : Span} {s : Nat} (hx : x.start = s) :
    ∀ (l : List Span), (insertSpan x l).filter (fun y => y.start == s) =
      x :: l.filter (fun y => y.start == s) := by
  intro l
  induction l with
  | nil => simp [insertSpan, hx]
  | cons y l ih =>
    by_cases hle : x.start ≤ y.start
    · rw [insertSpan, if_pos hle]
      simp [hx]
    · rw [insertSpan, if_neg hle]
      have hy : ¬ (y.start == s) = true := by
        simp only [beq_iff_eq]
        omega
      rw [List.filter_cons, if_neg hy, ih, List.filter_cons, if_neg hy]

theorem filter_insertSpan_neg {x : Span} {s : Nat} (hx : x.start ≠ s) :
    ∀ (l : List Span), (insertSpan x l).filter (fun y => y.start == s) =
      l.filter (fun y => y.start == s) := by
  intro l
  induction l with
  | nil => simp [insertSpan, hx]
  | cons y l ih =>
    by_cases hle : x.start ≤ y.start
    · rw [insertSpan, if_pos hle]
      have hx' : ¬ (x.start == s) = true := by simpa using hx
      rw [List.filter_cons, if_neg hx']
    · rw [insertSpan, if_neg hle]
      rw [List.filter_cons, ih, List.filter_cons]

/-- Stability of the sort: spans with a given start offset appear in the
sorted list in exactly the order they were pushed by the scanner. -/
theorem filter_sortSpans (s : Nat) : ∀ (l : List Span),
    (sortSpans l).filter (fun y => y.start == s) =
      l.filter (fun y => y.start == s) := by
  intro l
  induction l with
  | nil => rfl
  | cons x l ih =>
    by_cases hx : x.start = s
    · rw [sortSpans, filter_insertSpan_pos hx, ih, List.filter_cons,
        if_pos (by simpa using hx)]
    · rw [sortSpans, filter_insertSpan_neg hx, ih, List.filter_cons,
        if_neg (by simpa using hx)]

theorem keyword_skipped_aux {c k : Span} (hk : c.start = k.start)
    (hlen : c.start < c.stop) (hne : k ≠ c) :
    ∀ (u : List Span) (t : List Span) (e : Int),
    (u ++ c :: t).Pairwise (fun a b => a.start ≤ b.start) → k ∉ u →
    k ∉ acceptGo (u ++ c :: t) e := by
  intro u
  induction u with
  | nil =>
    intro t e hpw _ hmem
    rw [List.nil_append] at hpw hmem
    rw [List.pairwise_cons] at hpw
    by_cases hc : (c.start : Int) < e
    · rw [acceptGo, if_pos hc] at hmem
      have hge := acceptGo_start_ge hpw.2 hmem
      have hks : (k.start : Int) = (c.start : Int) := by exact_mod_cast hk.symm
      omega
    · rw [acceptGo, if_neg hc] at hmem
      rcases List.mem_cons.mp hmem with h | h
      · exact hne h
      · have hge : (c.stop : Int) ≤ (k.start : Int) := acceptGo_start_ge hpw.2 h
        have hklt : k.start < c.stop := hk ▸ hlen
        omega
  | cons a u ih =>
    intro t e hpw hku hmem
    rw [List.cons_append] at hpw hmem
    rw [List.pairwise_cons] at hpw
    have hka : k ≠ a := fun h => hku (by simp [h])
    have hku' : k ∉ u := fun h => hku (by simp [h])
    by_cases hc : (a.start : Int) < e
    · rw [acceptGo, if_pos hc] at hmem
      exact ih t e hpw.2 hku' hmem
    · rw [acceptGo, if_neg hc] at hmem
      rcases List.mem_cons.mp hmem with h | h
      · exact hka h
      · exact ih t _ hpw.2 hku' h

theorem sublist_pair_split {c k : Span} :
    ∀ {m : List Span}, List.Sublist [c, k] m →
    ∃ u t, m = u ++ c :: t ∧ k ∈ t := by
  intro m h
  induction m with
  | nil => cases h
  | cons x m ih =>
    cases h with
    | cons _ h' =>
      obtain ⟨u, t, rfl, hk⟩ := ih h'
      exact ⟨x :: u, t, rfl, hk⟩
    | cons₂ _ h' =>
      exact ⟨[], m, rfl, h'.mem (List.mem_cons_self _ _)⟩

/-- C3: tie-break by declaration order.  The scanner pushes spans rule by
rule in declaration order, so a COMMENT-rule span `c` precedes a
KEYWORD-rule span `k` in `positions`; if both start at the same offset (and
the comment span is nonempty) the stable sort keeps `c` first and the
overlap walk never accepts `k`, so the position is colored as COMMENT: in
the pure two-span case the compositor returns exactly the comment span. -/
theorem comment_rule_precedence (u v w : List Span) (c k : Span)
    (hnd : (u ++ (c :: (v ++ (k :: w)))).Nodup)
    (hcc : c.color = Cat.COMMENT) (hkc : k.color = Cat.KEYWORD)
    (hs : c.start = k.start) (hlen : c.start < c.stop) :
    k ∉ acceptSpans (u ++ (c :: (v ++ (k :: w)))) ∧ acceptSpans [c, k] = [c] := by
  have hne : k ≠ c := by
    intro h
    rw [h, hcc] at hkc
    cases hkc
  constructor
  · -- the sorted list still has `c` somewhere before `k`
    have hsub : List.Sublist [c, k] (u ++ (c :: (v ++ (k :: w)))) := by
      have h1 : List.Sublist [c, k] (c :: (v ++ (k :: w))) := by
        refine List.Sublist.cons₂ c ?_
        have h2 : List.Sublist [k] (k :: w) :=
          List.Sublist.cons₂ k (List.nil_sublist w)
        exact h2.trans (List.sublist_append_right v (k :: w))
      exact h1.trans (List.sublist_append_right u _)
    have hp : ∀ y ∈ [c, k], (fun y => y.start == k.start) y = true := by
      intro y hy
      rcases List.mem_cons.mp hy with rfl | hy'
      · simpa using hs
      · rcases List.mem_cons.mp hy' with rfl | hy''
        · simp
        · cases hy''
    have hsubf : List.Sublist [c, k]
        ((u ++ (c :: (v ++ (k :: w)))).filter (fun y => y.start == k.start)) := by
      have := List.Sublist.filter (fun y => y.start == k.start) hsub
      rwa [List.filter_eq_self.mpr hp] at this
    have hsorted : List.Sublist [c, k] (sortSpans (u ++ (c :: (v ++ (k :: w))))) := by
      have heq := filter_sortSpans k.start (u ++ (c :: (v ++ (k :: w))))
      exact (heq ▸ hsubf).trans (List.filter_sublist _)
    obtain ⟨u', t, hdec, hkt⟩ := sublist_pair_split hsorted
    have hnds : (sortSpans (u ++ (c :: (v ++ (k :: w))))).Nodup :=
      (sortSpans_perm _).nodup_iff.mpr hnd
    have hku' : k ∉ u' := by
      rw [hdec] at hnds
      rcases List.nodup_append.mp hnds with ⟨-, -, hdisj⟩
      intro hku
      exact hdisj hku (List.mem_cons_of_mem c hkt)
    have hpw : (u' ++ c :: t).Pairwise (fun a b => a.start ≤ b.start) := by
      rw [← hdec]
      exact sortSpans_sorted _
    intro hmem
    rw [acceptSpans, hdec] at hmem
    exact keyword_skipped_aux hs hlen hne u' t (-1) hpw hku' hmem
  · -- two-span computation
    have hle : c.start ≤ k.start := le_of_eq hs
    have hnotlt : ¬ ((c.start : Int) < -1) := by omega
    have hklt : (k.start : Int) < (c.stop : Int) := by
      have : k.start < c.stop := hs ▸ hlen
      exact_mod_cast this
    rw [acceptSpans, sortSpans, sortSpans, sortSpans, insertSpan, insertSpan,
      if_pos hle, acceptGo, if_neg hnotlt, acceptGo, if_pos hklt, acceptGo]

/-- Witness for C3 at a concrete pair of same-start spans. -/
theorem comment_rule_precedence_witness :
    (⟨0, Cat.KEYWORD, 3⟩ : Span) ∉
        acceptSpans [⟨0, Cat.COMMENT, 5⟩, ⟨0, Cat.KEYWORD, 3⟩] ∧
      acceptSpans [⟨0, Cat.COMMENT, 5⟩, ⟨0, Cat.KEYWORD, 3⟩] =
        [⟨0, Cat.COMMENT, 5⟩] :=
  comment_rule_precedence [] [] [] ⟨0, Cat.COMMENT, 5⟩ ⟨0, Cat.KEYWORD, 3⟩
    (by decide) rfl rfl rfl (by decide)

/-- Bool test that `pat` begins the list `s` (the ad-hoc form used instead
of the library one so that later lemmas control its unfolding). -/
def leadsWith : List Char → List Char → Bool
  | [], _ => true
  | _ :: _, [] => false
  | p :: ps, c :: cs => p == c && leadsWith ps cs

/-- `str.indexOf(pat)`: index of the first occurrence, `none` when absent. -/
def firstOcc (pat : List Char) : List Char → Option Nat
  | [] => if pat.isEmpty then some 0 else none
  | c :: r =>
    if leadsWith pat (c :: r) then some 0 else (firstOcc pat r).map (· + 1)

/-- The data the JS `String.replace` scan callback receives for one match:
the full matched text, the capture groups in order (`groups[0]` is the first
capture group, selected by default), and the match's offset. -/
structure MatchInfo where
  matched : List Char
  groups : List (List Char)
  offset : Nat

/-- One `Colors` rule paired with the matches its compiled regex finds in
the escaped text; the match list is an oracle for standard global-scan
regex semantics, which are not re-implemented. `index` is the group
selector parsed from a `==>N` suffix, `0` when absent. -/
structure RuleMatches where
  color : Cat
  index : Nat
  hits : List MatchInfo

/-- One scan-callback invocation: pick `groups[index]`, locate it inside
the full match with `match.indexOf(group)` (`substring(0, -1)` yields the
empty prefix when absent), and emit `[pos, color, pos + group.length]`. -/
def spanOfMatch (color : Cat) (index : Nat) (m : MatchInfo) : Span :=
  let group := m.groups.getD index []
  let start := (firstOcc group m.matched).getD 0
  let pos := m.offset + start
  ⟨pos, color, pos + group.length⟩

/-- The `positions.push(...)` calls made while scanning one rule. -/
def scanRule (ps : List Span) (r : RuleMatches) : List Span :=
  r.hits.foldl (fun acc m => acc ++ [spanOfMatch r.color r.index m]) ps

/-- The whole scan over the rule table in declaration order, starting from
the empty `positions` array. -/
def scanAll (rules : List RuleMatches) : List Span :=
  rules.foldl scanRule []

theorem foldl_push_map {α β : Type} (f : α → β) :
    ∀ (l : List α) (acc : List β),
    l.foldl (fun a m => a ++ [f m]) acc = acc ++ l.map f := by
  intro l
  induction l with
  | nil => intro acc; simp
  | cons m l ih =>
    intro acc
    simp [List.foldl_cons, ih, List.append_assoc]

theorem scanRule_eq (r : RuleMatches) (ps : List Span) :
    scanRule ps r = ps ++ r.hits.map (spanOfMatch r.color r.index) :=
  foldl_push_map _ r.hits ps

theorem scanAll_go (rules : List RuleMatches) :
    ∀ (ps : List Span), rules.foldl scanRule ps =
      ps ++ (rules.map
        (fun r => r.hits.map (spanOfMatch r.color r.index))).flatten := by
  induction rules with
  | nil => intro ps; simp
  | cons r rules ih =>
    intro ps
    simp [List.foldl_cons, ih, scanRule_eq, List.append_assoc]

/-- C6: scanner span emission.  For every rule, every regex match pushes
exactly one span, computed by `spanOfMatch` as
`(pos, category, pos + group.length)` with
`pos = offset + match.indexOf(group)` for the designated capture group
(`groups[index]`, `index = 0` by default); the final `positions` array is
exactly the concatenation, in declaration order, of one span per match, so
a rule with no matches contributes no spans. -/
theorem scanner_emits_one_span_per_match (rules : List RuleMatches) :
    scanAll rules = (rules.map
      (fun r => r.hits.map (spanOfMatch r.color r.index))).flatten := by
  rw [scanAll, scanAll_go]
  rfl

/-- The option object destructured by `Highlight`, with its default values.
`defaultsPart000` embeds the defaults of `src/unnamed/part_000`;
`defaultsJustLib` those of `src/JustLib.js` (they differ in
`allowSelection`). -/
structure HighlightOptions where
  tabSize : Nat
  indentLines : Bool
  wrapLines : Bool
  lineNumbers : Bool
  style : Bool
  colorVariables : Bool
  fontSize : Nat
  lineHeight : Nat
  allowSelection : Bool
  debug : Bool
  deriving DecidableEq

/-- Defaults of `Highlight` in `src/unnamed/part_000`. -/
def defaultsPart000 : HighlightOptions :=
  ⟨4, true, false, true, true, true, 14, 18, false, false⟩

/-- Defaults of `Highlight` in `src/JustLib.js`. -/
def defaultsJustLib : HighlightOptions :=
  ⟨4, true, false, true, true, true, 14, 18, true, false⟩

/-- Whether the emitted root element carries the `onmousedown`
click-to-select handler attribute: `${allowSelection ? 'onmousedown=...' : ''}`. -/
def emitsSelectionHandler (o : HighlightOptions) : Bool := o.allowSelection

/-- Counterexample to C8 as stated: in `src/JustLib.js` the destructuring
default is `allowSelection = true`, and therefore the click-to-select
handler attribute *is* emitted when options are omitted. -/
theorem c8_counterexample :
    defaultsJustLib.allowSelection = true ∧
      emitsSelectionHandler defaultsJustLib = true := ⟨rfl, rfl⟩

/-- C8 (amended): calling `Highlight` without options behaves as if
`tabSize = 4`, `indentLines = true`, `wrapLines = false`,
`lineNumbers = true`, `style = true`, `colorVariables = true`,
`fontSize = 14`, `lineHeight = 18`, `debug = false` in both copies of the
function; `allowSelection` defaults to `false` in `src/unnamed/part_000`
(no click handler emitted) but to `true` in `src/JustLib.js` (the handler
attribute is emitted by default there). -/
theorem highlight_option_defaults :
    defaultsPart000 = ⟨4, true, false, true, true, true, 14, 18, false, false⟩ ∧
      defaultsJustLib = ⟨4, true, false, true, true, true, 14, 18, true, false⟩ ∧
      emitsSelectionHandler defaultsPart000 = false ∧
      emitsSelectionHandler defaultsJustLib = true :=
  ⟨rfl, rfl, rfl, rfl⟩

/-- `DIGITS` of `ComplexNumber.__getParseRegex`. -/
def DIGITS : String := "([0-9.]+)"

/-- `SIGN` of `ComplexNumber.__getParseRegex`. -/
def SIGN : String := "([+-])"

/-- `IDENTIFIER` of `ComplexNumber.__getParseRegex`. -/
def IDENTIFIER : String := "([a-z])"

/-- The seven alternative complex-literal forms, in source order
(`a+bi`, `a+ib`, `bi+a`, `ib+a`, `a`, `bi`, `ib`). -/
def parseForms : List String :=
  [SIGN ++ "?" ++ DIGITS ++ SIGN ++ DIGITS ++ IDENTIFIER,
   SIGN ++ "?" ++ DIGITS ++ SIGN ++ IDENTIFIER ++ DIGITS,
   SIGN ++ "?" ++ DIGITS ++ IDENTIFIER ++ SIGN ++ DIGITS,
   SIGN ++ "?" ++ IDENTIFIER ++ DIGITS ++ SIGN ++ DIGITS,
   SIGN ++ "?" ++ DIGITS,
   SIGN ++ "?" ++ DIGITS ++ IDENTIFIER,
   SIGN ++ "?" ++ IDENTIFIER ++ DIGITS]

/-- The pattern string `^(?:${syntax.join("|")})$` that
`__getParseRegex` compiles. -/
def buildParseRegex : String :=
  "^(?:" ++ String.intercalate "|" parseForms ++ ")$"

/-- `ComplexNumber.__getParseRegex` as a state transformer over the static
cache `this.__parseRegex`: return the cached pattern when present (the
compiled regex object is truthy), otherwise compile and store it. -/
def getParseRegex : Option String → String × Option String
  | some r => (r, some r)
  | none => (buildParseRegex, some buildParseRegex)

/-- The cache state after `n` successive calls to `__getParseRegex`. -/
def runCalls : Nat → Option String → Option String
  | 0, st => st
  | n + 1, st => runCalls n (getParseRegex st).2

theorem runCalls_cached :
    ∀ (n : Nat), runCalls n (some buildParseRegex) = some buildParseRegex := by
  intro n
  induction n with
  | zero => rfl
  | succ m ih => simpa [runCalls, getParseRegex] using ih

/-- C9: the parse regex is lazily initialized at most once.  Starting from
an empty cache, after any positive number of calls the cache holds exactly
the compiled pattern `buildParseRegex`; a call with a populated cache
returns the stored value and leaves the cache unchanged; and the pattern
computed on a cache miss is always the same `buildParseRegex` (the
computation is pure, hence idempotent). -/
theorem parse_regex_memoized (n : Nat) (r : String) (h : 1 ≤ n) :
    runCalls n none = some buildParseRegex ∧
      getParseRegex (some r) = (r, some r) ∧
      (getParseRegex none).1 = buildParseRegex := by
  refine ⟨?_, rfl, rfl⟩
  cases n with
  | zero => omega
  | succ m =>
    show runCalls m (getParseRegex none).2 = some buildParseRegex
    exact runCalls_cached m

/-- Witness for C9 after two calls. -/
theorem parse_regex_memoized_witness :
    runCalls 2 none = some buildParseRegex ∧
      getParseRegex (some buildParseRegex) =
        (buildParseRegex, some buildParseRegex) ∧
      (getParseRegex none).1 = buildParseRegex :=
  parse_regex_memoized 2 buildParseRegex (by decide)

/-- `range(tabSize).reduce(prev => prev + "&nbsp;", "")`: the placeholder
text `TAB` substituted for one tab character. -/
def tabChunk (tabSize : Nat) : List Char :=
  (List.replicate tabSize "&nbsp;".data).flatten

/-- Non-overlapping global match count,
`((lines[i-1] || "").match(tabRegex) || "").length` with
`tabRegex = ((&nbsp;){tabSize})` embedded for the literal pattern
`pat = tabChunk tabSize`: scan left to right; whenever the pattern starts
at the current position count one match and skip its text.  The first
argument carries the number of characters of a counted match still to
skip. -/
def countGroupsAux (pat : List Char) : Nat → List Char → Nat
  | _, [] => 0
  | Nat.succ k, _ :: r => countGroupsAux pat k r
  | 0, c :: r =>
    if leadsWith pat (c :: r) then 1 + countGroupsAux pat (pat.length - 1) r
    else countGroupsAux pat 0 r

/-- Number of non-overlapping matches of `pat` anywhere in `l`. -/
def countGroups (pat : List Char) (l : List Char) : Nat := countGroupsAux pat 0 l

/-- Modelled from the claim's wording, for comparison only: the number of
complete tab-sized placeholder groups at the *start* of a line (leading
indent depth `k`). -/
def leadGroupsAux (pat : List Char) : Nat → List Char → Nat
  | _, [] => 0
  | Nat.succ k, _ :: r => leadGroupsAux pat k r
  | 0, c :: r =>
    if leadsWith pat (c :: r) then 1 + leadGroupsAux pat (pat.length - 1) r
    else 0

/-- Modelled from the claim's wording (leading complete groups only). -/
def specLeadingGroups (pat l : List Char) : Nat := leadGroupsAux pat 0 l

/-- The body of the first line loop
(`if(!lines[i].length || !(lines[i].length == 1 && lines[i] == "\r")) continue;`):
only a line that is exactly `"\r"` is replaced -- the condition `continue`s
on empty lines -- and it becomes `TAB` repeated once per `tabRegex` match
anywhere in the previous line. -/
def inferLine (tabSize : Nat) (prev cur : List Char) : List Char :=
  if cur = ['\r'] then
    (List.replicate (countGroups (tabChunk tabSize) prev)
      (tabChunk tabSize)).flatten
  else cur

/-- The first line loop.  It mutates `lines` in place, so the previous line
read by iteration `i` is the already-updated one; `prev` starts as `""`
(`lines[-1] || ""`). -/
def blankLoopGo (tabSize : Nat) : List Char → List (List Char) → List (List Char)
  | _, [] => []
  | prev, l :: rest =>
    inferLine tabSize prev l ::
      blankLoopGo tabSize (inferLine tabSize prev l) rest

/-- `str.replace(/  /g, "&nbsp;&nbsp;")`: non-overlapping double-space
replacement, single spaces kept. -/
def spaceConv : List Char → List Char
  | [] => []
  | ' ' :: ' ' :: r => "&nbsp;&nbsp;".data ++ spaceConv r
  | c :: r => c :: spaceConv r

theorem blankLoopGo_spec (ts : Nat) :
    ∀ (lines : List (List Char)) (prev : List Char) (i : Nat) (l : List Char),
    (lines[i]? = some ['\r'] →
      (blankLoopGo ts prev lines)[i]? = some
        ((List.replicate (countGroups (tabChunk ts)
            (match i with
             | 0 => prev
             | j + 1 => ((blankLoopGo ts prev lines)[j]?).getD []))
          (tabChunk ts)).flatten)) ∧
    (lines[i]? = some l → l ≠ ['\r'] →
      (blankLoopGo ts prev lines)[i]? = some l) := by
  intro lines
  induction lines with
  | nil =>
    intro prev i l
    constructor
    · intro h; simp at h
    · intro h; simp at h
  | cons l0 rest ih =>
    intro prev i l
    cases i with
    | zero =>
      constructor
      · intro h
        simp only [List.getElem?_cons_zero, Option.some.injEq] at h
        subst h
        simp [blankLoopGo, inferLine, countGroups]
      · intro h hne
        simp only [List.getElem?_cons_zero, Option.some.injEq] at h
        subst h
        simp [blankLoopGo, inferLine, hne]
    | succ j =>
      have hout : (blankLoopGo ts prev (l0 :: rest))[j + 1]? =
          (blankLoopGo ts (inferLine ts prev l0) rest)[j]? := by
        simp [blankLoopGo]
      constructor
      · intro h
        simp only [List.getElem?_cons_succ] at h
        have hih := (ih (inferLine ts prev l0) j l).1 h
        rw [hout, hih]
        cases j with
        | zero => simp [blankLoopGo]
        | succ m => simp [blankLoopGo]
      · intro h hne
        simp only [List.getElem?_cons_succ] at h
        rw [hout]
        exact (ih (inferLine ts prev l0) j l).2 h hne

/-- C4 (amended): blank-line indent inference as the code performs it.  In
the first line loop only a line that is exactly the carriage-return remnant
`"\r"` is rewritten (a truly empty line fails the loop's condition and is
left unchanged); the rewritten line becomes one `TAB` per complete
tab-sized placeholder group occurring *anywhere* in the immediately
preceding emitted (already-processed) line -- not merely at its start --
and it is derived only from that line (`prev` for line 0 is `""`). -/
theorem blank_line_indent_inference (ts : Nat) (lines : List (List Char))
    (i : Nat) (l : List Char) :
    (lines[i]? = some ['\r'] →
      (blankLoopGo ts [] lines)[i]? = some
        ((List.replicate (countGroups (tabChunk ts)
            (match i with
             | 0 => []
             | j + 1 => ((blankLoopGo ts [] lines)[j]?).getD []))
          (tabChunk ts)).flatten)) ∧
    (lines[i]? = some l → l ≠ ['\r'] →
      (blankLoopGo ts [] lines)[i]? = some l) :=
  blankLoopGo_spec ts lines [] i l

/-- Witness for C4 (amended) on a concrete two-line run. -/
theorem blank_line_indent_inference_witness :
    (blankLoopGo 4 [] [['a'], ['\r']])[1]? = some
        ((List.replicate (countGroups (tabChunk 4)
            (((blankLoopGo 4 [] [['a'], ['\r']])[0]?).getD []))
          (tabChunk 4)).flatten) ∧
      (blankLoopGo 4 [] [['a'], ['\r']])[0]? = some ['a'] :=
  ⟨(blank_line_indent_inference 4 [['a'], ['\r']] 1 ['a']).1 (by decide),
    (blank_line_indent_inference 4 [['a'], ['\r']] 0 ['a']).2 rfl (by decide)⟩

/-- `str.split("\n")`. -/
def splitNl : List Char → List (List Char)
  | [] => [[]]
  | c :: r =>
    if c = '\n' then [] :: splitNl r
    else
      match splitNl r with
      | [] => [[c]]
      | l :: ls => (c :: l) :: ls

/-- `lines.join("\n")`. -/
def joinNl : List (List Char) → List Char
  | [] => []
  | [l] => l
  | l :: l' :: ls => l ++ '\n' :: joinNl (l' :: ls)

/-- Counterexample to C4 as stated: on input `"x\t\n\r"` the first line
escapes and tab-converts to `x&nbsp;&nbsp;&nbsp;&nbsp;`, whose
leading-indent depth is `k = 0` (it starts with `x`), yet the following
`"\r"` line is assigned indent depth 1 (one full `TAB`), because the code
counts placeholder groups anywhere in the previous line, not only at its
start. -/
theorem blank_line_indent_counterexample :
    (blankLoopGo 4 []
        (splitNl (spaceConv (replaceChar '\t' (tabChunk 4)
          (escape "x\t\n\r".data)))))[1]? = some (tabChunk 4) ∧
      specLeadingGroups (tabChunk 4)
        (((blankLoopGo 4 [] (splitNl (spaceConv (replaceChar '\t' (tabChunk 4)
          (escape "x\t\n\r".data)))))[0]?).getD []) = 0 ∧
      tabChunk 4 ≠ (List.replicate 0 (tabChunk 4)).flatten := by
  decide

/-- `text0`, the opening tag `<span style="color: var(--COLOR)">` inserted
before an accepted span. -/
def openTag (k : Cat) : List Char :=
  "<span style=\"color: var(--".data ++ (catName k ++ ")\">".data)

/-- `openTag` without its leading `<`. -/
def tagTail (k : Cat) : List Char :=
  "span style=\"color: var(--".data ++ (catName k ++ ")\">".data)

/-- `text1`, the closing tag. -/
def closeTag : List Char := "</span>".data

/-- `str.slice(0, p) + t + str.slice(p)`: pure insertion at a (clamped)
position. -/
def insertAt (p : Nat) (t s : List Char) : List Char :=
  s.take p ++ (t ++ s.drop p)

/-- The compositor's insertion loop over the accepted spans: insert `text0`
at `start + offset`, `text1` at `text0.length + end + offset`, and grow the
running `offset` by both tag lengths. -/
def annotateGo : List Span → Nat → List Char → List Char
  | [], _, s => s
  | sp :: rest, off, s =>
    annotateGo rest (off + (openTag sp.color).length + closeTag.length)
      (insertAt ((openTag sp.color).length + sp.stop + off) closeTag
        (insertAt (sp.start + off) (openTag sp.color) s))

/-- Reference (gap-based) form of the insertion loop, used to reason about
its output: emit the gap before the span, the opening tag, the span's
content, the closing tag, and continue past the span (`b` is the original
offset already consumed). -/
def annotateRel : List Span → Nat → List Char → List Char
  | [], _, s => s
  | sp :: rest, b, s =>
    s.take (sp.start - b) ++ (openTag sp.color ++
      ((s.drop (sp.start - b)).take (sp.stop - sp.start) ++ (closeTag ++
        annotateRel rest sp.stop (s.drop (sp.stop - b)))))

/-- Accepted-shape ordering of a span list relative to base offset `b`:
spans are in order, nonempty-or-forward, and pairwise non-overlapping. -/
def spanChain : Nat → List Span → Prop
  | _, [] => True
  | b, sp :: rest => b ≤ sp.start ∧ sp.start ≤ sp.stop ∧ spanChain sp.stop rest

theorem openTag_cons (k : Cat) : openTag k = '<' :: tagTail k := rfl

theorem closeTag_cons : closeTag = '<' :: "/span>".data := rfl

theorem insertAt_append {p : Nat} (A R t : List Char) (h : A.length ≤ p) :
    insertAt p t (A ++ R) = A ++ insertAt (p - A.length) t R := by
  unfold insertAt
  rw [List.take_append_eq_append_take, List.drop_append_eq_append_drop,
    List.take_of_length_le h, List.drop_eq_nil_of_le h]
  simp [List.append_assoc]

theorem annotateGo_eq_rel :
    ∀ (spans : List Span) (b off : Nat) (A R : List Char),
    A.length = b + off → spanChain b spans →
    (∀ p ∈ spans, p.stop ≤ b + R.length) →
    annotateGo spans off (A ++ R) = A ++ annotateRel spans b R := by
  intro spans
  induction spans with
  | nil =>
    intro b off A R _ _ _
    rfl
  | cons sp rest ih =>
    intro b off A R hA hch hbd
    obtain ⟨hb, hse, hch'⟩ := hch
    have hbd0 : sp.stop ≤ b + R.length := hbd sp (List.mem_cons_self _ _)
    have hTlen : (R.take (sp.start - b)).length = sp.start - b := by
      rw [List.length_take]
      omega
    have hXlen : ((R.drop (sp.start - b)).take (sp.stop - sp.start)).length
        = sp.stop - sp.start := by
      rw [List.length_take, List.length_drop]
      omega
    rw [annotateGo]
    rw [insertAt_append A R _ (by omega)]
    have e1 : sp.start + off - A.length = sp.start - b := by omega
    rw [e1]
    have hinner1 : insertAt (sp.start - b) (openTag sp.color) R =
        R.take (sp.start - b) ++ (openTag sp.color ++ R.drop (sp.start - b)) := rfl
    rw [hinner1]
    have hassoc1 : A ++ (R.take (sp.start - b) ++
          (openTag sp.color ++ R.drop (sp.start - b))) =
        (A ++ R.take (sp.start - b) ++ openTag sp.color) ++
          R.drop (sp.start - b) := by
      simp [List.append_assoc]
    rw [hassoc1]
    have hA1 : (A ++ R.take (sp.start - b) ++ openTag sp.color).length
        = sp.start + off + (openTag sp.color).length := by
      simp [List.length_append, hTlen]
      omega
    rw [insertAt_append _ _ _ (by rw [hA1]; omega)]
    have e2 : (openTag sp.color).length + sp.stop + off -
        (A ++ R.take (sp.start - b) ++ openTag sp.color).length =
        sp.stop - sp.start := by
      rw [hA1]
      omega
    rw [e2]
    have hinner2 : insertAt (sp.stop - sp.start) closeTag
          (R.drop (sp.start - b)) =
        (R.drop (sp.start - b)).take (sp.stop - sp.start) ++
          (closeTag ++ (R.drop (sp.start - b)).drop (sp.stop - sp.start)) := rfl
    rw [hinner2]
    have hdd : (R.drop (sp.start - b)).drop (sp.stop - sp.start) =
        R.drop (sp.stop - b) := by
      rw [List.drop_drop]
      congr 1
      omega
    rw [hdd]
    have hassoc2 : (A ++ R.take (sp.start - b) ++ openTag sp.color) ++
        ((R.drop (sp.start - b)).take (sp.stop - sp.start) ++
          (closeTag ++ R.drop (sp.stop - b))) =
        (A ++ R.take (sp.start - b) ++ openTag sp.color ++
          (R.drop (sp.start - b)).take (sp.stop - sp.start) ++ closeTag) ++
          R.drop (sp.stop - b) := by
      simp [List.append_assoc]
    rw [hassoc2]
    rw [ih sp.stop (off + (openTag sp.color).length + closeTag.length) _ _
      (by
        simp [List.length_append, hTlen, hXlen]
        omega)
      hch'
      (by
        intro p hp
        have := hbd p (List.mem_cons_of_mem _ hp)
        rw [List.length_drop]
        omega)]
    rw [annotateRel]
    simp [List.append_assoc]

/-- All categories, in a fixed enumeration order. -/
def catList : List Cat :=
  [.COMMENT, .REGEX, .NUMBER, .STRING, .TEMPLATE_CODE, .NAME, .DATA_TYPE,
   .IMPORT, .CONTROL, .CONSTANT, .CONDITIONAL, .FUNCTION, .ARITHMETIC,
   .STORAGE, .KEYWORD, .VARIABLE, .ENUM, .INDENT, .SELECTION,
   .SELECTED_LINE, .LINE_NUMBER, .BACKGROUND]

/-- The category whose opening tag begins `s`, if any. -/
def findTag (s : List Char) : Option Cat :=
  catList.find? (fun k => leadsWith (openTag k) s)

/-- Deleting the inserted markup again: remove every opening tag (of any
category) and every closing tag, scanning left to right. -/
def stripTags (s : List Char) : List Char :=
  match s with
  | [] => []
  | c :: r =>
    if leadsWith closeTag (c :: r) then
      stripTags ((c :: r).drop closeTag.length)
    else
      match findTag (c :: r) with
      | some k => stripTags ((c :: r).drop (openTag k).length)
      | none => c :: stripTags r
termination_by s.length
decreasing_by
  · simp only [List.length_drop, List.length_cons]
    have h7 : closeTag.length = 7 := rfl
    omega
  · simp only [List.length_drop, List.length_cons]
    have h1 : 1 ≤ (openTag k).length := by cases k <;> decide
    omega
  · simp only [List.length_cons]
    omega

theorem leadsWith_append_self : ∀ (p v : List Char), leadsWith p (p ++ v) = true := by
  intro p
  induction p with
  | nil => intro v; rfl
  | cons x p ih => intro v; simp [leadsWith, ih]

theorem leadsWith_exists_append :
    ∀ {p s : List Char}, leadsWith p s = true → s = p ++ s.drop p.length := by
  intro p
  induction p with
  | nil => intro s _; rfl
  | cons x p ih =>
    intro s h
    cases s with
    | nil => simp [leadsWith] at h
    | cons c r =>
      rw [leadsWith, Bool.and_eq_true, beq_iff_eq] at h
      obtain ⟨rfl, h2⟩ := h
      simpa using ih h2

theorem leadsWith_take :
    ∀ (b a v : List Char), leadsWith a (b ++ v) = true →
    leadsWith (a.take b.length) b = true := by
  intro b
  induction b with
  | nil => intro a v _; rfl
  | cons x b ih =>
    intro a v h
    cases a with
    | nil => rfl
    | cons p a' =>
      rw [List.cons_append, leadsWith, Bool.and_eq_true] at h
      rw [List.length_cons, List.take_succ_cons, leadsWith, Bool.and_eq_true]
      exact ⟨h.1, ih a' v h.2⟩

theorem openTag_length_pos (k : Cat) : 1 ≤ (openTag k).length := by
  cases k <;> decide

theorem openTag_indep :
    ∀ (a b : Cat), a ≠ b →
    leadsWith ((openTag a).take (openTag b).length) (openTag b) = false := by
  decide

theorem closeTag_not_lead_openTag (k : Cat) :
    leadsWith (closeTag.take (openTag k).length) (openTag k) = false := by
  cases k <;> decide

theorem openTag_not_lead_closeTag (k : Cat) :
    leadsWith ((openTag k).take closeTag.length) closeTag = false := by
  cases k <;> decide

theorem leadsWith_openTag_append (a b : Cat) (v : List Char) (h : a ≠ b) :
    leadsWith (openTag a) (openTag b ++ v) = false := by
  by_contra hc
  rw [Bool.not_eq_false] at hc
  have := leadsWith_take (openTag b) (openTag a) v hc
  rw [openTag_indep a b h] at this
  cases this

theorem leadsWith_closeTag_openTag (k : Cat) (v : List Char) :
    leadsWith closeTag (openTag k ++ v) = false := by
  by_contra hc
  rw [Bool.not_eq_false] at hc
  have := leadsWith_take (openTag k) closeTag v hc
  rw [closeTag_not_lead_openTag k] at this
  cases this

theorem leadsWith_openTag_closeTag (k : Cat) (v : List Char) :
    leadsWith (openTag k) (closeTag ++ v) = false := by
  by_contra hc
  rw [Bool.not_eq_false] at hc
  have := leadsWith_take closeTag (openTag k) v hc
  rw [openTag_not_lead_closeTag k] at this
  cases this

theorem stripTags_nil : stripTags [] = [] := by
  rw [stripTags]

theorem leadsWith_closeTag_cons {c : Char} (h : c ≠ '<') (s : List Char) :
    leadsWith closeTag (c :: s) = false := by
  rw [closeTag_cons, leadsWith]
  have : ('<' == c) = false := by
    simp [beq_iff_eq]
    exact fun h' => h h'.symm
  simp [this]

theorem findTag_cons_ne {c : Char} (h : c ≠ '<') (s : List Char) :
    findTag (c :: s) = none := by
  apply List.find?_eq_none.mpr
  intro k _
  rw [openTag_cons, leadsWith]
  have : ('<' == c) = false := by
    simp [beq_iff_eq]
    exact fun h' => h h'.symm
  simp [this]

theorem stripTags_cons_ne {c : Char} (h : c ≠ '<') (s : List Char) :
    stripTags (c :: s) = c :: stripTags s := by
  rw [stripTags, leadsWith_closeTag_cons h, findTag_cons_ne h]
  simp

theorem stripTags_closeTag (v : List Char) :
    stripTags (closeTag ++ v) = stripTags v := by
  have hform : closeTag ++ v = '<' :: ("/span>".data ++ v) := rfl
  have hlw : leadsWith closeTag ('<' :: ("/span>".data ++ v)) = true := by
    rw [← hform]
    exact leadsWith_append_self closeTag v
  have hdrop : ('<' :: ("/span>".data ++ v)).drop closeTag.length = v := by
    rw [← hform]
    exact List.drop_left closeTag v
  rw [hform, stripTags, hlw, hdrop]
  simp

theorem find?_unique {p : Cat → Bool} {k : Cat}
    (hk : p k = true) (hother : ∀ a : Cat, a ≠ k → p a = false) :
    ∀ (L : List Cat), k ∈ L → L.find? p = some k := by
  intro L
  induction L with
  | nil => intro h; cases h
  | cons a L ih =>
    intro hmem
    by_cases ha : a = k
    · subst ha
      rw [List.find?_cons, hk]
    · rw [List.find?_cons, hother a ha]
      exact ih (List.mem_of_ne_of_mem (fun h => ha h.symm) hmem)

theorem mem_catList (k : Cat) : k ∈ catList := by
  cases k <;> decide

theorem findTag_openTag (k : Cat) (v : List Char) :
    findTag (openTag k ++ v) = some k := by
  apply find?_unique
  · exact leadsWith_append_self (openTag k) v
  · intro a ha
    exact leadsWith_openTag_append a k v ha
  · exact mem_catList k

theorem stripTags_openTag (k : Cat) (v : List Char) :
    stripTags (openTag k ++ v) = stripTags v := by
  have hform : openTag k ++ v = '<' :: (tagTail k ++ v) := by
    rw [openTag_cons]
    rfl
  have hlw : leadsWith closeTag ('<' :: (tagTail k ++ v)) = false := by
    rw [← hform]
    exact leadsWith_closeTag_openTag k v
  have hfind : findTag ('<' :: (tagTail k ++ v)) = some k := by
    rw [← hform]
    exact findTag_openTag k v
  have hdrop : ('<' :: (tagTail k ++ v)).drop (openTag k).length = v := by
    rw [← hform]
    exact List.drop_left (openTag k) v
  rw [hform, stripTags, hlw, hfind]
  simp [hdrop]

theorem stripTags_append_no_lt {x : List Char} (hx : ∀ c ∈ x, c ≠ '<') :
    ∀ (y : List Char), stripTags (x ++ y) = x ++ stripTags y := by
  induction x with
  | nil => intro y; rfl
  | cons c x ih =>
    intro y
    rw [List.cons_append,
      stripTags_cons_ne (hx c (List.mem_cons_self _ _)),
      ih (fun d hd => hx d (List.mem_cons_of_mem _ hd)), List.cons_append]

theorem stripTags_no_lt {x : List Char} (hx : ∀ c ∈ x, c ≠ '<') :
    stripTags x = x := by
  have := stripTags_append_no_lt hx []
  simpa [stripTags_nil] using this

/-- Well-formed annotated text: original characters (never `<`) interleaved
with whole tag pairs around `<`-free span content.  The compositor's output
on escaped text always has this shape. -/
inductive WFA : List Char → Prop
  | nil : WFA []
  | chr {c : Char} {s : List Char} : c ≠ '<' → WFA s → WFA (c :: s)
  | tag {k : Cat} {content s : List Char} :
      (∀ c ∈ content, c ≠ '<') → WFA s →
      WFA (openTag k ++ (content ++ (closeTag ++ s)))

theorem WFA_of_no_lt {x : List Char} (hx : ∀ c ∈ x, c ≠ '<') : WFA x := by
  induction x with
  | nil => exact WFA.nil
  | cons c x ih =>
    exact WFA.chr (hx c (List.mem_cons_self _ _))
      (ih fun d hd => hx d (List.mem_cons_of_mem _ hd))

theorem WFA_append_no_lt {x : List Char} (hx : ∀ c ∈ x, c ≠ '<') :
    ∀ {y : List Char}, WFA y → WFA (x ++ y) := by
  induction x with
  | nil => intro y hy; exact hy
  | cons c x ih =>
    intro y hy
    exact WFA.chr (hx c (List.mem_cons_self _ _))
      (ih (fun d hd => hx d (List.mem_cons_of_mem _ hd)) hy)

theorem WFA_annotateRel :
    ∀ (spans : List Span) (b : Nat) (R : List Char),
    (∀ c ∈ R, c ≠ '<') → WFA (annotateRel spans b R) := by
  intro spans
  induction spans with
  | nil => intro b R h; exact WFA_of_no_lt h
  | cons sp rest ih =>
    intro b R h
    rw [annotateRel]
    apply WFA_append_no_lt (fun c hc => h c (List.take_subset _ _ hc))
    exact WFA.tag
      (fun c hc => h c (List.drop_subset _ _ (List.take_subset _ _ hc)))
      (ih sp.stop _ (fun c hc => h c (List.drop_subset _ _ hc)))

theorem take_drop_assemble (R : List Char) (m n : Nat) :
    R.take m ++ ((R.drop m).take n ++ R.drop (n + m)) = R := by
  have h : R.drop (n + m) = (R.drop m).drop n := by
    rw [List.drop_drop, Nat.add_comm]
  rw [h, List.take_append_drop, List.take_append_drop]

theorem strip_annotateRel :
    ∀ (spans : List Span) (b : Nat) (R : List Char),
    spanChain b spans → (∀ c ∈ R, c ≠ '<') →
    stripTags (annotateRel spans b R) = R := by
  intro spans
  induction spans with
  | nil => intro b R _ h; exact stripTags_no_lt h
  | cons sp rest ih =>
    intro b R hch h
    obtain ⟨hb, hse, hch'⟩ := hch
    rw [annotateRel]
    rw [stripTags_append_no_lt (fun c hc => h c (List.take_subset _ _ hc))]
    rw [stripTags_openTag]
    rw [stripTags_append_no_lt
      (fun c hc => h c (List.drop_subset _ _ (List.take_subset _ _ hc)))]
    rw [stripTags_closeTag]
    rw [ih sp.stop _ hch' (fun c hc => h c (List.drop_subset _ _ hc))]
    have he : sp.stop - b = (sp.stop - sp.start) + (sp.start - b) := by omega
    rw [he]
    exact take_drop_assemble R (sp.start - b) (sp.stop - sp.start)


/-- Split at the first occurrence of `pat`:
`breakAt pat s = some (a, b)` means `s = a ++ pat ++ b` with `a` shortest,
`none` when `pat` does not occur in `s`. -/
def breakAt (pat : List Char) : List Char → Option (List Char × List Char)
  | [] => if pat.isEmpty then some ([], []) else none
  | c :: r =>
    if leadsWith pat (c :: r) then some ([], (c :: r).drop pat.length)
    else (breakAt pat r).map (fun q => (c :: q.1, q.2))

theorem breakAt_eq {pat : List Char} :
    ∀ {s a b : List Char}, breakAt pat s = some (a, b) → s = a ++ (pat ++ b) := by
  intro s
  induction s with
  | nil =>
    intro a b h
    rw [breakAt] at h
    by_cases hp : pat.isEmpty
    · rw [if_pos hp] at h
      rw [Option.some.injEq, Prod.mk.injEq] at h
      obtain ⟨rfl, rfl⟩ := h
      simp [List.isEmpty_iff.mp hp]
    · rw [if_neg hp] at h
      cases h
  | cons c r ih =>
    intro a b h
    rw [breakAt] at h
    by_cases hl : leadsWith pat (c :: r) = true
    · rw [if_pos hl] at h
      rw [Option.some.injEq, Prod.mk.injEq] at h
      obtain ⟨rfl, rfl⟩ := h
      simpa using leadsWith_exists_append hl
    · rw [if_neg hl] at h
      cases hb : breakAt pat r with
      | none =>
        rw [hb] at h
        cases h
      | some q =>
        rw [hb, Option.map_some'] at h
        rw [Option.some.injEq, Prod.mk.injEq] at h
        obtain ⟨rfl, rfl⟩ := h
        have := ih hb
        simp [this]

theorem breakAt_exact {content : List Char} (s : List Char)
    (h : ∀ c ∈ content, c ≠ '<') :
    breakAt closeTag (content ++ (closeTag ++ s)) = some (content, s) := by
  induction content with
  | nil =>
    have hform : ([] : List Char) ++ (closeTag ++ s) =
        '<' :: ("/span>".data ++ s) := rfl
    rw [hform, breakAt]
    have hlw : leadsWith closeTag ('<' :: ("/span>".data ++ s)) = true := by
      rw [← hform]
      simp [leadsWith_append_self]
    rw [if_pos hlw]
    have hdrop : ('<' :: ("/span>".data ++ s)).drop closeTag.length = s := by
      rw [← hform]
      simp [List.drop_left]
    rw [hdrop]
  | cons c content ih =>
    have hform : (c :: content) ++ (closeTag ++ s) =
        c :: (content ++ (closeTag ++ s)) := rfl
    rw [hform, breakAt]
    have hc : c ≠ '<' := h c (List.mem_cons_self _ _)
    rw [if_neg (by rw [leadsWith_closeTag_cons hc]; exact Bool.false_ne_true)]
    rw [ih (fun d hd => h d (List.mem_cons_of_mem _ hd)), Option.map_some']

/-- Whether the regex piece `(?:.|\r\n)*?` can cover the span content: `.`
does not match `\n`, so every newline must occur as part of a `\r\n` pair. -/
def crlfOk : List Char → Bool
  | [] => true
  | '\r' :: '\n' :: r => crlfOk r
  | '\n' :: _ => false
  | _ :: r => crlfOk r

/-- `sub.replace(/\n/gm, text1 + "\n" + text0)` applied inside a matched
span by the newline post-processing callback. -/
def nlSplitSub (t0 t1 : List Char) : List Char → List Char
  | [] => []
  | c :: r =>
    if c = '\n' then t1 ++ ('\n' :: (t0 ++ nlSplitSub t0 t1 r))
    else c :: nlSplitSub t0 t1 r

/-- The newline post-processing pass
`str.replace(/(<span style=".*?">)((?:.|\r\n)*?)(<\/span>)/gim, ...)`,
embedded for the tag shapes the compositor inserts.  At an opening tag
whose span content (the text up to the first closing tag) the pattern
`(?:.|\r\n)*?` can cover, the match succeeds: if the content contains a
newline every newline is rewritten to `text1 + "\n" + text0`, otherwise the
callback returns the match unchanged; scanning resumes after the closing
tag.  Anywhere else -- including at an opening tag whose content holds a
newline not preceded by `\r`, where the regex cannot match -- one character
is emitted and the global scan advances. -/
def nlPost (s : List Char) : List Char :=
  match s with
  | [] => []
  | c :: r =>
    match findTag (c :: r) with
    | none => c :: nlPost r
    | some k =>
      match hbk : breakAt closeTag ((c :: r).drop (openTag k).length) with
      | none => c :: nlPost r
      | some (sub, post) =>
        if crlfOk sub then
          if sub.contains '\n' then
            openTag k ++ (nlSplitSub (openTag k) closeTag sub ++
              (closeTag ++ nlPost post))
          else
            openTag k ++ (sub ++ (closeTag ++ nlPost post))
        else c :: nlPost r
termination_by s.length
decreasing_by
  · simp only [List.length_cons]
    omega
  · have he := breakAt_eq hbk
    have hl := congrArg List.length he
    simp only [List.length_append, List.length_drop, List.length_cons] at hl
    have h7 : closeTag.length = 7 := rfl
    simp only [List.length_cons]
    omega
  · have he := breakAt_eq hbk
    have hl := congrArg List.length he
    simp only [List.length_append, List.length_drop, List.length_cons] at hl
    have h7 : closeTag.length = 7 := rfl
    simp only [List.length_cons]
    omega

theorem nlPost_nil : nlPost [] = [] := by
  rw [nlPost]

theorem nlPost_cons_ne {c : Char} (h : c ≠ '<') (s : List Char) :
    nlPost (c :: s) = c :: nlPost s := by
  rw [nlPost, findTag_cons_ne h]

theorem nlPost_append_no_lt {x : List Char} (hx : ∀ c ∈ x, c ≠ '<') :
    ∀ (y : List Char), nlPost (x ++ y) = x ++ nlPost y := by
  induction x with
  | nil => intro y; rfl
  | cons c x ih =>
    intro y
    rw [List.cons_append, nlPost_cons_ne (hx c (List.mem_cons_self _ _)),
      ih (fun d hd => hx d (List.mem_cons_of_mem _ hd)), List.cons_append]

theorem slash_span_no_lt : ∀ c ∈ "/span>".data, c ≠ '<' := by decide

theorem tagTail_no_lt (k : Cat) : ∀ c ∈ tagTail k, c ≠ '<' := by
  cases k <;> decide

theorem nlPost_closeTag (s : List Char) :
    nlPost (closeTag ++ s) = closeTag ++ nlPost s := by
  have hform : closeTag ++ s = '<' :: ("/span>".data ++ s) := rfl
  have hfind : findTag ('<' :: ("/span>".data ++ s)) = none := by
    apply List.find?_eq_none.mpr
    intro k _
    rw [← hform, leadsWith_openTag_closeTag k s]
    exact Bool.false_ne_true
  have hbk2 : nlPost ("/span>".data ++ s) = "/span>".data ++ nlPost s :=
    nlPost_append_no_lt slash_span_no_lt s
  rw [hform, nlPost, hfind, hbk2]
  rfl

theorem strip_nlSplitSub (k : Cat) :
    ∀ {content : List Char}, (∀ c ∈ content, c ≠ '<') →
    ∀ (y : List Char),
    stripTags (nlSplitSub (openTag k) closeTag content ++ y) =
      content ++ stripTags y := by
  intro content
  induction content with
  | nil => intro _ y; rfl
  | cons c content ih =>
    intro h y
    have hc : c ≠ '<' := h c (List.mem_cons_self _ _)
    have hrest : ∀ d ∈ content, d ≠ '<' :=
      fun d hd => h d (List.mem_cons_of_mem _ hd)
    by_cases hcn : c = '\n'
    · subst hcn
      rw [nlSplitSub, if_pos rfl]
      have hassoc : (closeTag ++
            ('\n' :: (openTag k ++ nlSplitSub (openTag k) closeTag content))) ++ y =
          closeTag ++ ('\n' :: (openTag k ++
            (nlSplitSub (openTag k) closeTag content ++ y))) := by
        simp [List.append_assoc]
      rw [hassoc, stripTags_closeTag,
        stripTags_cons_ne (by decide : ('\n' : Char) ≠ '<'),
        stripTags_openTag, ih hrest y, List.cons_append]
    · rw [nlSplitSub, if_neg hcn, List.cons_append, stripTags_cons_ne hc,
        ih hrest y, List.cons_append]

theorem strip_nlPost {x : List Char} (h : WFA x) :
    stripTags (nlPost x) = stripTags x := by
  induction h with
  | nil => rw [nlPost_nil]
  | @chr c s hc _ ih =>
    rw [nlPost_cons_ne hc, stripTags_cons_ne hc, stripTags_cons_ne hc, ih]
  | @tag k content s hcontent _ ih =>
    have hform : openTag k ++ (content ++ (closeTag ++ s)) =
        '<' :: (tagTail k ++ (content ++ (closeTag ++ s))) := by
      rw [openTag_cons]
      rfl
    have hfind : findTag ('<' :: (tagTail k ++ (content ++ (closeTag ++ s)))) =
        some k := by
      rw [← hform]
      exact findTag_openTag k _
    have hdrop : ('<' :: (tagTail k ++ (content ++ (closeTag ++ s)))).drop
        (openTag k).length = content ++ (closeTag ++ s) := by
      rw [← hform]
      exact List.drop_left (openTag k) _
    have hbk : breakAt closeTag
        (('<' :: (tagTail k ++ (content ++ (closeTag ++ s)))).drop
          (openTag k).length) = some (content, s) := by
      rw [hdrop]
      exact breakAt_exact s hcontent
    -- the right-hand side stripped
    have hrhs : stripTags (openTag k ++ (content ++ (closeTag ++ s))) =
        content ++ stripTags s := by
      rw [stripTags_openTag, stripTags_append_no_lt hcontent,
        stripTags_closeTag]
    rw [hform, nlPost]
    split
    · rename_i heq
      rw [hfind] at heq
      cases heq
    · rename_i k1 heq
      rw [hfind, Option.some.injEq] at heq
      subst heq
      split
      · rename_i heq2
        rw [hbk] at heq2
        cases heq2
      · rename_i sub post heq2
        rw [hbk, Option.some.injEq, Prod.mk.injEq] at heq2
        obtain ⟨rfl, rfl⟩ := heq2
        by_cases hok : crlfOk content = true
        · rw [if_pos hok]
          by_cases hnl : content.contains '\n' = true
          · rw [if_pos hnl]
            rw [stripTags_openTag, strip_nlSplitSub k hcontent,
              stripTags_closeTag, ih, ← hform, hrhs]
          · rw [if_neg hnl, stripTags_openTag, stripTags_append_no_lt hcontent,
              stripTags_closeTag, ih, ← hform, hrhs]
        · rw [if_neg hok]
          have hsplit : tagTail k ++ (content ++ (closeTag ++ s)) =
              (tagTail k ++ content) ++ (closeTag ++ s) := by
            simp [List.append_assoc]
          have hnolt : ∀ c ∈ tagTail k ++ content, c ≠ '<' := by
            intro c hc
            rcases List.mem_append.mp hc with h1 | h2
            · exact tagTail_no_lt k c h1
            · exact hcontent c h2
          rw [hsplit, nlPost_append_no_lt hnolt, nlPost_closeTag]
          have hback : '<' :: ((tagTail k ++ content) ++ (closeTag ++ nlPost s)) =
              openTag k ++ (content ++ (closeTag ++ nlPost s)) := by
            rw [openTag_cons]
            simp [List.append_assoc]
          have hback2 : '<' :: (tagTail k ++ content ++ (closeTag ++ s)) =
              openTag k ++ (content ++ (closeTag ++ s)) := by
            rw [openTag_cons]
            simp [List.append_assoc]
          rw [hback, stripTags_openTag, stripTags_append_no_lt hcontent,
            stripTags_closeTag, ih, hback2, hrhs]

theorem spanChain_of_accept :
    ∀ (l : List Span) (b : Nat),
    l.Pairwise (fun a c => a.stop ≤ c.start) →
    (∀ p ∈ l, p.start ≤ p.stop) → (∀ p ∈ l, b ≤ p.start) →
    spanChain b l := by
  intro l
  induction l with
  | nil => intro b _ _ _; exact trivial
  | cons sp rest ih =>
    intro b hpw hse hb
    rw [List.pairwise_cons] at hpw
    refine ⟨hb sp (List.mem_cons_self _ _), hse sp (List.mem_cons_self _ _), ?_⟩
    exact ih sp.stop hpw.2 (fun p hp => hse p (List.mem_cons_of_mem _ hp))
      (fun p hp => hpw.1 p hp)

/-- C10: content preservation through composition.  The compositor's
insertion loop over the accepted spans, followed by the newline
post-processing pass, only inserts whole `<span style="color: var(--C)">`
and `</span>` tags into the escaped text: deleting every such tag restores
the escaped input character for character -- no character is deleted,
replaced, or reordered before the tab/space conversion stage.  The
hypotheses state that the candidate spans have the shape scanner output
always has: `start ≤ end` and `end` within the escaped text. -/
theorem composition_content_preserved (s0 : List Char) (ps : List Span)
    (hse : ∀ p ∈ ps, p.start ≤ p.stop)
    (hbd : ∀ p ∈ ps, p.stop ≤ (escape s0).length) :
    stripTags (nlPost (annotateGo (acceptSpans ps) 0 (escape s0))) =
      escape s0 := by
  have hmem : ∀ p ∈ acceptSpans ps, p ∈ ps := by
    intro p hp
    have h1 : p ∈ sortSpans ps := (acceptGo_sublist (sortSpans ps) (-1)).mem hp
    exact (sortSpans_perm ps).mem_iff.mp h1
  have hch : spanChain 0 (acceptSpans ps) :=
    spanChain_of_accept _ 0 (acceptGo_pairwise (-1) (sortSpans_sorted ps))
      (fun p hp => hse p (hmem p hp)) (fun p _ => Nat.zero_le _)
  have hnl : ∀ c ∈ escape s0, c ≠ '<' := by
    intro c hc heq
    exact lt_not_mem_escape s0 (heq ▸ hc)
  have hrel : annotateGo (acceptSpans ps) 0 (escape s0) =
      annotateRel (acceptSpans ps) 0 (escape s0) := by
    have h := annotateGo_eq_rel (acceptSpans ps) 0 0 [] (escape s0) rfl hch
      (fun p hp => by simpa using hbd p (hmem p hp))
    simpa using h
  rw [hrel, strip_nlPost (WFA_annotateRel _ 0 _ hnl),
    strip_annotateRel _ 0 _ hch hnl]

/-- Witness for C10 at a concrete escaped input and span list. -/
theorem composition_content_preserved_witness :
    stripTags (nlPost (annotateGo (acceptSpans [⟨0, Cat.COMMENT, 1⟩]) 0
        (escape "a<b".data))) = escape "a<b".data :=
  composition_content_preserved "a<b".data [⟨0, Cat.COMMENT, 1⟩]
    (by decide) (by decide)

theorem count_replaceChar {d c : Char} {rep : List Char} (hd : d ≠ c)
    (hrep : d ∉ rep) : ∀ (s : List Char),
    (replaceChar c rep s).count d = s.count d := by
  intro s
  induction s with
  | nil => rfl
  | cons x r ih =>
    rw [replaceChar, List.count_append, ih]
    by_cases hx : x = c
    · rw [if_pos hx, List.count_eq_zero.mpr hrep, hx,
        List.count_cons_of_ne hd]
      omega
    · rw [if_neg hx]
      simp [List.count_cons, List.count_singleton']
      omega

theorem count_escape_nl (s : List Char) :
    (escape s).count '\n' = s.count '\n' := by
  rw [escape, count_replaceChar (by decide) (by decide),
    count_replaceChar (by decide) (by decide)]

theorem count_insertAt (d : Char) (p : Nat) (t s : List Char) :
    (insertAt p t s).count d = t.count d + s.count d := by
  rw [insertAt, List.count_append, List.count_append]
  have h := congrArg (List.count d) (List.take_append_drop p s)
  rw [List.count_append] at h
  omega

theorem openTag_no_nl (k : Cat) : '\n' ∉ openTag k := by
  cases k <;> decide

theorem closeTag_no_nl : '\n' ∉ closeTag := by decide

theorem count_annotateGo :
    ∀ (spans : List Span) (off : Nat) (s : List Char),
    (annotateGo spans off s).count '\n' = s.count '\n' := by
  intro spans
  induction spans with
  | nil => intro off s; rfl
  | cons sp rest ih =>
    intro off s
    rw [annotateGo, ih, count_insertAt, count_insertAt,
      List.count_eq_zero.mpr closeTag_no_nl,
      List.count_eq_zero.mpr (openTag_no_nl sp.color)]
    omega

theorem count_nlSplitSub {t0 t1 : List Char} (h0 : '\n' ∉ t0)
    (h1 : '\n' ∉ t1) : ∀ (r : List Char),
    (nlSplitSub t0 t1 r).count '\n' = r.count '\n' := by
  intro r
  induction r with
  | nil => rfl
  | cons c r ih =>
    by_cases hc : c = '\n'
    · subst hc
      rw [nlSplitSub, if_pos rfl, List.count_append, List.count_cons_self,
        List.count_append, ih, List.count_eq_zero.mpr h0,
        List.count_eq_zero.mpr h1, List.count_cons_self]
      omega
    · rw [nlSplitSub, if_neg hc]
      simp [List.count_cons, ih]

theorem nlPost_eq_find_none {c : Char} {r : List Char}
    (h : findTag (c :: r) = none) : nlPost (c :: r) = c :: nlPost r := by
  rw [nlPost, h]

theorem nlPost_eq_breakAt_none {c : Char} {r : List Char} {k : Cat}
    (hf : findTag (c :: r) = some k)
    (hb : breakAt closeTag ((c :: r).drop (openTag k).length) = none) :
    nlPost (c :: r) = c :: nlPost r := by
  rw [nlPost, hf]
  split
  · rename_i heq
    cases heq
  · rename_i k1 heq
    rw [Option.some.injEq] at heq
    subst heq
    split
    · rfl
    · rename_i sub post heq2
      simp [hb] at heq2

theorem nlPost_eq_success {c : Char} {r sub post : List Char} {k : Cat}
    (hf : findTag (c :: r) = some k)
    (hb : breakAt closeTag ((c :: r).drop (openTag k).length) =
      some (sub, post))
    (hok : crlfOk sub = true) :
    nlPost (c :: r) =
      if sub.contains '\n' then
        openTag k ++ (nlSplitSub (openTag k) closeTag sub ++
          (closeTag ++ nlPost post))
      else openTag k ++ (sub ++ (closeTag ++ nlPost post)) := by
  rw [nlPost, hf]
  split
  · rename_i heq
    cases heq
  · rename_i k1 heq
    rw [Option.some.injEq] at heq
    subst heq
    split
    · rename_i heq2
      simp [hb] at heq2
    · rename_i sub' post' heq2
      rw [hb, Option.some.injEq, Prod.mk.injEq] at heq2
      obtain ⟨rfl, rfl⟩ := heq2
      rw [if_pos hok]

theorem nlPost_eq_nocrlf {c : Char} {r sub post : List Char} {k : Cat}
    (hf : findTag (c :: r) = some k)
    (hb : breakAt closeTag ((c :: r).drop (openTag k).length) =
      some (sub, post))
    (hok : ¬ crlfOk sub = true) :
    nlPost (c :: r) = c :: nlPost r := by
  rw [nlPost, hf]
  split
  · rename_i heq
    cases heq
  · rename_i k1 heq
    rw [Option.some.injEq] at heq
    subst heq
    split
    · rename_i heq2
      simp [hb] at heq2
    · rename_i sub' post' heq2
      rw [hb, Option.some.injEq, Prod.mk.injEq] at heq2
      obtain ⟨rfl, rfl⟩ := heq2
      rw [if_neg hok]

theorem count_nlPost : ∀ (s : List Char),
    (nlPost s).count '\n' = s.count '\n' := by
  intro s
  induction s using nlPost.induct with
  | case1 => rw [nlPost_nil]
  | case2 c r hf ih =>
    rw [nlPost_eq_find_none hf]
    simp [List.count_cons, ih]
  | case3 c r k hf hb ih =>
    rw [nlPost_eq_breakAt_none hf hb]
    simp [List.count_cons, ih]
  | case4 c r k hf sub post hb hok hnl ih =>
    rw [nlPost_eq_success hf hb hok, if_pos hnl]
    have hf2 : catList.find? (fun k2 => leadsWith (openTag k2) (c :: r)) =
        some k := hf
    have hlw0 := List.find?_some hf2
    have hlw : leadsWith (openTag k) (c :: r) = true := hlw0
    have hdec := leadsWith_exists_append hlw
    have hsub := breakAt_eq hb
    rw [hsub] at hdec
    rw [hdec]
    simp [List.count_append, List.count_eq_zero.mpr (openTag_no_nl k),
      List.count_eq_zero.mpr closeTag_no_nl,
      count_nlSplitSub (openTag_no_nl k) closeTag_no_nl, ih]
  | case5 c r k hf sub post hb hok hnl ih =>
    rw [nlPost_eq_success hf hb hok, if_neg hnl]
    have hf2 : catList.find? (fun k2 => leadsWith (openTag k2) (c :: r)) =
        some k := hf
    have hlw0 := List.find?_some hf2
    have hlw : leadsWith (openTag k) (c :: r) = true := hlw0
    have hdec := leadsWith_exists_append hlw
    have hsub := breakAt_eq hb
    rw [hsub] at hdec
    rw [hdec]
    simp [List.count_append, List.count_eq_zero.mpr (openTag_no_nl k),
      List.count_eq_zero.mpr closeTag_no_nl, ih]
  | case6 c r k hf sub post hb hok ih =>
    rw [nlPost_eq_nocrlf hf hb hok]
    simp [List.count_cons, ih]

theorem count_spaceConv : ∀ (s : List Char),
    (spaceConv s).count '\n' = s.count '\n' := by
  intro s
  induction s using spaceConv.induct with
  | case1 => rfl
  | case2 r ih =>
    rw [spaceConv]
    simp [List.count_append, List.count_cons, ih]
  | case3 c r hne ih =>
    rw [spaceConv.eq_3 c r hne]
    simp [List.count_cons, ih]

theorem tabChunk_no_nl (ts : Nat) : '\n' ∉ tabChunk ts := by
  intro h
  rw [tabChunk] at h
  rcases List.mem_flatten.mp h with ⟨l, hl, hmem⟩
  rw [List.eq_of_mem_replicate hl] at hmem
  revert hmem
  decide

theorem splitNl_ne_nil : ∀ (s : List Char), splitNl s ≠ [] := by
  intro s
  induction s with
  | nil => simp [splitNl]
  | cons c r ih =>
    rw [splitNl]
    by_cases hc : c = '\n'
    · simp [hc]
    · rw [if_neg hc]
      cases hsp : splitNl r with
      | nil => simp
      | cons l ls => simp

theorem length_splitNl : ∀ (s : List Char),
    (splitNl s).length = s.count '\n' + 1 := by
  intro s
  induction s with
  | nil => rfl
  | cons c r ih =>
    rw [splitNl]
    by_cases hc : c = '\n'
    · subst hc
      simp [List.count_cons_self, ih]
    · rw [if_neg hc]
      cases hsp : splitNl r with
      | nil => exact absurd hsp (splitNl_ne_nil r)
      | cons l ls =>
        rw [hsp] at ih
        simp only [List.length_cons] at ih
        simp [List.count_cons, hc, ih]

theorem splitNl_no_nl : ∀ (s : List Char), ∀ l ∈ splitNl s, '\n' ∉ l := by
  intro s
  induction s with
  | nil =>
    intro l hl
    simp [splitNl] at hl
    simp [hl]
  | cons c r ih =>
    intro l hl
    rw [splitNl] at hl
    by_cases hc : c = '\n'
    · rw [if_pos hc] at hl
      rcases List.mem_cons.mp hl with rfl | hl'
      · simp
      · exact ih l hl'
    · rw [if_neg hc] at hl
      cases hsp : splitNl r with
      | nil => exact absurd hsp (splitNl_ne_nil r)
      | cons l0 ls =>
        rw [hsp] at hl
        rcases List.mem_cons.mp hl with rfl | hl'
        · intro hmem
          rcases List.mem_cons.mp hmem with h1 | h2
          · exact hc h1.symm
          · exact ih l0 (by rw [hsp]; exact List.mem_cons_self _ _) h2
        · exact ih l (by rw [hsp]; exact List.mem_cons_of_mem _ hl')

theorem count_joinNl_zero : ∀ (L : List (List Char)),
    (∀ l ∈ L, '\n' ∉ l) → (joinNl L).count '\n' = L.length - 1 := by
  intro L
  induction L with
  | nil => intro _; rfl
  | cons l L ih =>
    intro h
    cases L with
    | nil =>
      rw [joinNl]
      simp [List.count_eq_zero.mpr (h l (List.mem_cons_self _ _))]
    | cons l2 L2 =>
      rw [joinNl, List.count_append, List.count_cons_self,
        List.count_eq_zero.mpr (h l (List.mem_cons_self _ _)),
        ih (fun x hx => h x (List.mem_cons_of_mem _ hx))]
      simp only [List.length_cons]
      omega

theorem length_blankLoopGo (ts : Nat) :
    ∀ (L : List (List Char)) (prev : List Char),
    (blankLoopGo ts prev L).length = L.length := by
  intro L
  induction L with
  | nil => intro prev; rfl
  | cons l L ih =>
    intro prev
    rw [blankLoopGo, List.length_cons, List.length_cons, ih]

theorem blankLoopGo_no_nl (ts : Nat) :
    ∀ (L : List (List Char)) (prev : List Char),
    (∀ l ∈ L, '\n' ∉ l) → ∀ l' ∈ blankLoopGo ts prev L, '\n' ∉ l' := by
  intro L
  induction L with
  | nil => intro prev _ l' hl'; cases hl'
  | cons l L ih =>
    intro prev h l' hl'
    rw [blankLoopGo] at hl'
    rcases List.mem_cons.mp hl' with rfl | hl''
    · rw [inferLine]
      by_cases hc : l = ['\r']
      · rw [if_pos hc]
        intro hmem
        rcases List.mem_flatten.mp hmem with ⟨x, hx, hmemx⟩
        rw [List.eq_of_mem_replicate hx] at hmemx
        exact tabChunk_no_nl ts hmemx
      · rw [if_neg hc]
        exact h l (List.mem_cons_self _ _)
    · exact ih (inferLine ts prev l)
        (fun x hx => h x (List.mem_cons_of_mem _ hx)) l' hl''

/-- One emitted row (`<tr>`): the optional 1-based line-number cell, whether
the code cell carries the neutral failure style (`style="color: white;"`),
and the code-cell text (`lines[i].replace(/\r/g, "") || "<br>"`). -/
structure Row where
  num : Option Nat
  neutral : Bool
  content : List Char
  deriving DecidableEq

/-- The row-building loop over the processed lines. -/
def rowsGo (lineNumbers failed : Bool) : Nat → List (List Char) → List Row
  | _, [] => []
  | i, l :: ls =>
    { num := if lineNumbers then some (i + 1) else none
      neutral := failed
      content :=
        if replaceChar '\r' [] l = [] then "<br>".data
        else replaceChar '\r' [] l } :: rowsGo lineNumbers failed (i + 1) ls

/-- What a `Highlight` call yields, as far as the claims are concerned: the
emitted rows and the argument handed to the `onerror` callback. -/
structure HLResult where
  rows : List Row
  onerrorArg : Option (List Char)

/-- The `Highlight` pipeline.  `positions` stands for the scanner's pushed
spans (an oracle, since regex matching is not re-implemented).  `failed`
states whether a rule's regex compilation or a match callback threw inside
the `try` block: the whole scan runs before any annotation, so on failure
the string is still the pristine escaped text, the annotation stage is
skipped, and the catch invokes `onerror` with the original unescaped
input. -/
def HighlightPipeline (input : List Char) (positions : List Span)
    (failed lineNumbers : Bool) (tabSize : Nat) : HLResult :=
  let escaped := escape input
  let annotated :=
    if failed then escaped
    else nlPost (annotateGo (acceptSpans positions) 0 escaped)
  let conv := spaceConv (replaceChar '\t' (tabChunk tabSize) annotated)
  let blanks := joinNl (blankLoopGo tabSize [] (splitNl conv))
  { rows := rowsGo lineNumbers failed 0 (splitNl blanks)
    onerrorArg := if failed then some input else none }

theorem length_rowsGo (ln f : Bool) :
    ∀ (L : List (List Char)) (i : Nat), (rowsGo ln f i L).length = L.length := by
  intro L
  induction L with
  | nil => intro i; rfl
  | cons l L ih =>
    intro i
    rw [rowsGo, List.length_cons, List.length_cons, ih]

theorem rowsGo_neutral (ln : Bool) :
    ∀ (L : List (List Char)) (i : Nat),
    (rowsGo ln true i L).all (fun r => r.neutral) = true := by
  intro L
  induction L with
  | nil => intro i; rfl
  | cons l L ih =>
    intro i
    rw [rowsGo, List.all_cons, ih]
    rfl

theorem pipeline_row_count (input : List Char) (positions : List Span)
    (failed lineNumbers : Bool) (tabSize : Nat) :
    (HighlightPipeline input positions failed lineNumbers tabSize).rows.length
      = (splitNl input).length := by
  rw [HighlightPipeline]
  simp only [length_rowsGo, length_splitNl]
  have hann : (if failed then escape input
      else nlPost (annotateGo (acceptSpans positions) 0
        (escape input))).count '\n' = input.count '\n' := by
    by_cases hf : failed
    · rw [if_pos hf, count_escape_nl]
    · rw [if_neg hf, count_nlPost, count_annotateGo, count_escape_nl]
  rw [count_joinNl_zero _ (blankLoopGo_no_nl tabSize _ [] (splitNl_no_nl _)),
    length_blankLoopGo, length_splitNl, count_spaceConv,
    count_replaceChar (by decide) (tabChunk_no_nl tabSize), hann]
  omega

/-- C5: row-count round trip.  For every input string (and any scanner
output), the number of emitted row wrappers equals the number of
newline-delimited lines of the input (`"".split("\n")` has one element, so
the empty input yields exactly one row). -/
theorem row_count_round_trip (input : List Char) (positions : List Span)
    (lineNumbers : Bool) (tabSize : Nat) :
    (HighlightPipeline input positions false lineNumbers tabSize).rows.length
      = (splitNl input).length :=
  pipeline_row_count input positions false lineNumbers tabSize

/-- C2: error containment.  If a rule's regex compilation or match callback
throws during the scan stage, the failure callback receives the pristine
unescaped original text, the returned structure still has one row wrapper
per newline-delimited input line, and every code cell carries the single
neutral color style instead of per-category colors.  (The catch keeps the
exception from propagating; in the model the pipeline is total and the
thrown error value itself is outside the embedding.) -/
theorem error_containment (input : List Char) (positions : List Span)
    (lineNumbers : Bool) (tabSize : Nat) :
    (HighlightPipeline input positions true lineNumbers tabSize).onerrorArg
        = some input ∧
      (HighlightPipeline input positions true lineNumbers
        tabSize).rows.length = (splitNl input).length ∧
      (HighlightPipeline input positions true lineNumbers
        tabSize).rows.all (fun r => r.neutral) = true := by
  refine ⟨rfl, pipeline_row_count input positions true lineNumbers tabSize, ?_⟩
  rw [HighlightPipeline]
  exact rowsGo_neutral lineNumbers _ 0
